import Mathlib

/-!
Shallow embedding of `migrate_print_to_template.py`: a one-shot textual
migrator that rewrites `print(...)` calls into bracketed template literals
`[...]` line by line, using four ordered regular-expression substitutions,
and walks directories of files accumulating counters and diagnostics.

Strings are modelled as `List Char`.  Each of the four Python regexes is
simple enough that its (backtracking) matching semantics is deterministic;
each is embedded as an explicit scanning function, and `re.search` / `re.sub`
as leftmost search / leftmost non-overlapping global replacement.
-/

set_option maxRecDepth 20000

def L (s : String) : List Char := s.toList

/-! ### Character classes (codepoint ranges, as in the regexes) -/

def isLowerCh (c : Char) : Bool := decide (97 ≤ c.toNat ∧ c.toNat ≤ 122)

def isUpperCh (c : Char) : Bool := decide (65 ≤ c.toNat ∧ c.toNat ≤ 90)

def isDigitCh (c : Char) : Bool := decide (48 ≤ c.toNat ∧ c.toNat ≤ 57)

/-- First character of the `pattern3` identifier: `[a-z_]`. -/
def isIdentStartCh (c : Char) : Bool := isLowerCh c || decide (c.toNat = 95)

/-- Continuation character of the `pattern3` identifier: `[a-z0-9_]`. -/
def isIdentCh (c : Char) : Bool := isLowerCh c || isDigitCh c || decide (c.toNat = 95)

/-- Python `\s` restricted to ASCII: space, tab, newline, CR, VT, FF. -/
def isPySpace (c : Char) : Bool :=
  decide (c.toNat = 32) || decide (c.toNat = 9) || decide (c.toNat = 10) ||
  decide (c.toNat = 13) || decide (c.toNat = 11) || decide (c.toNat = 12)

/-- Python's `str.strip()`: remove leading and trailing whitespace. -/
def pyStrip (s : List Char) : List Char :=
  ((s.dropWhile isPySpace).reverse.dropWhile isPySpace).reverse

/-- Substring test, Python's `pat in s`. -/
def containsSub : List Char → List Char → Bool
  | pat, [] => pat.isPrefixOf ([] : List Char)
  | pat, s@(_ :: rest) => pat.isPrefixOf s || containsSub pat rest

/-- The literal `print(`. -/
def prCall : List Char := L "print("

/-! ### Diagnostics accumulated in `self.errors` -/

inductive Diag where
  /-- Formatted as `"{filename}:{line_num}: Complex expression may need manual review: {stripped}"`. -/
  | complexExpr (filename : List Char) (lineNum : Nat) (text : List Char)
  /-- Formatted as `"{filename}:{line_num}: Could not auto-migrate: {stripped}"`. -/
  | couldNotMigrate (filename : List Char) (lineNum : Nat) (text : List Char)
  /-- Formatted as `"{filepath}: Error reading file: {e}"`. -/
  | readError (filename : List Char)
deriving DecidableEq

/-! ### Generic leftmost search and global substitution

`m s` is the match of one regex anchored at the start of `s`, returning the
captured group and the remainder of the string after the whole match. -/

/-- Python `re.search`: does the pattern match at some position? -/
def reSearch (m : List Char → Option (List Char × List Char)) : List Char → Bool
  | [] => false
  | s@(_ :: rest) => (m s).isSome || reSearch m rest

/-- The leftmost match (capture and remainder after it). -/
def reFind (m : List Char → Option (List Char × List Char)) :
    List Char → Option (List Char × List Char)
  | [] => none
  | s@(_ :: rest) =>
    match m s with
    | some p => some p
    | none => reFind m rest

/-- Python `re.sub`, fuelled: scan left to right, replace each leftmost
non-overlapping match by `repl` applied to its captured group, resume after
the match.  The fuel dominates the length of the remaining input. -/
def reSubFuel (m : List Char → Option (List Char × List Char))
    (repl : List Char → List Char) : Nat → List Char → List Char
  | 0, _ => []
  | _ + 1, [] => []
  | fuel + 1, c :: rest =>
    match m (c :: rest) with
    | some p => repl p.1 ++ reSubFuel m repl fuel p.2
    | none => c :: reSubFuel m repl fuel rest

/-- Python `re.sub` with the canonical fuel. -/
def reSub (m : List Char → Option (List Char × List Char))
    (repl : List Char → List Char) (s : List Char) : List Char :=
  reSubFuel m repl s.length s

theorem reSubFuel_eq_of_le {m : List Char → Option (List Char × List Char)}
    {repl : List Char → List Char}
    (hm : ∀ s p, m s = some p → p.2.length < s.length) :
    ∀ (f : Nat) (s : List Char), s.length ≤ f →
      reSubFuel m repl f s = reSubFuel m repl s.length s := by
  intro f
  induction f using Nat.strong_induction_on with
  | _ f ih =>
    intro s hs
    match f, s with
    | 0, s =>
      have : s = [] := by
        cases s with
        | nil => rfl
        | cons c r => simp at hs
      subst this; rfl
    | f + 1, [] => rfl
    | f + 1, c :: rest =>
      have hs' : rest.length + 1 ≤ f + 1 := by simpa using hs
      simp only [reSubFuel, List.length_cons]
      cases hmm : m (c :: rest) with
      | some p =>
        have hlt : p.2.length < rest.length + 1 := by
          have := hm _ _ hmm
          simpa using this
        show repl p.1 ++ reSubFuel m repl f p.2
            = repl p.1 ++ reSubFuel m repl rest.length p.2
        rw [ih f (by omega) p.2 (by omega),
          ih rest.length (by omega) p.2 (by omega)]
      | none =>
        show c :: reSubFuel m repl f rest = c :: reSubFuel m repl rest.length rest
        rw [ih f (by omega) rest (by omega),
          ih rest.length (by omega) rest (by omega)]

/-- The natural unfolding of `reSub` on a nonempty string. -/
theorem reSub_cons {m : List Char → Option (List Char × List Char)}
    {repl : List Char → List Char}
    (hm : ∀ s p, m s = some p → p.2.length < s.length) (c : Char)
    (rest : List Char) :
    reSub m repl (c :: rest) =
      (match m (c :: rest) with
       | some p => repl p.1 ++ reSub m repl p.2
       | none => c :: reSub m repl rest) := by
  show reSubFuel m repl (c :: rest).length (c :: rest) = _
  simp only [List.length_cons, reSubFuel]
  cases hmm : m (c :: rest) with
  | some p =>
    have hlt : p.2.length < rest.length + 1 := by
      have := hm _ _ hmm
      simpa using this
    show repl p.1 ++ reSubFuel m repl rest.length p.2 = repl p.1 ++ reSub m repl p.2
    rw [reSubFuel_eq_of_le hm rest.length p.2 (by omega)]
    rfl
  | none => rfl

/-! ### Pattern 1: `print\(\[(.*?)\]\)` -/

/-- Index of the first occurrence of `])` reachable without crossing a
newline (the lazy `.*?` cannot match `\n`). -/
def findClose : List Char → Option Nat
  | [] => none
  | s@(c :: rest) =>
    if (']' :: ')' :: []).isPrefixOf s then some 0
    else if c == '\n' then none
    else (findClose rest).map (· + 1)

/-- Match of pattern 1 anchored at the start of `s`:
`(captured group, remainder after the match)`. -/
def matchAt1 (s : List Char) : Option (List Char × List Char) :=
  if (L "print([").isPrefixOf s then
    (findClose (s.drop 7)).map (fun i => ((s.drop 7).take i, (s.drop 7).drop (i + 2)))
  else none

theorem matchAt1_rest_lt :
    ∀ (s : List Char) (p : List Char × List Char),
      matchAt1 s = some p → p.2.length < s.length := by
  intro s p h
  unfold matchAt1 at h
  split at h
  · rename_i hpre
    obtain ⟨i, hi, hp⟩ := Option.map_eq_some'.mp h
    have h7 : 7 ≤ s.length := by
      have := ( List.isPrefixOf_iff_prefix.mp hpre).length_le
      simpa using this
    rw [← hp]
    simp [List.length_drop]
    omega
  · exact absurd h (by simp)

/-- Whether `re.search(pattern1, s)` succeeds. -/
def search1 (s : List Char) : Bool := reSearch matchAt1 s

/-- Python `re.sub(pattern1, r'[\1]', s)`. -/
def sub1 (s : List Char) : List Char := reSub matchAt1 (fun g => '[' :: (g ++ [']'])) s

theorem sub1_cons (c : Char) (rest : List Char) :
    sub1 (c :: rest) =
      (match matchAt1 (c :: rest) with
       | some p => '[' :: (p.1 ++ ']' :: sub1 p.2)
       | none => c :: sub1 rest) := by
  show reSub _ _ _ = _
  rw [reSub_cons matchAt1_rest_lt]
  cases matchAt1 (c :: rest) <;> simp [sub1, reSub]

/-! ### Pattern 2: `print\("((?:[^"\\]|\\.)*)"\)` -/

/-- Length of the quoted-string body starting right after `print("`, provided
the body is followed by `")`.  The alternation `[^"\\]|\\.` is deterministic,
so the greedy star has a unique viable stopping point (the first unescaped
quote). -/
def findStrEnd : List Char → Option Nat
  | [] => none
  | c :: rest =>
    if c == '\"' then
      match rest with
      | [] => none
      | d :: _ => if d == ')' then some 0 else none
    else if c == '\\' then
      match rest with
      | [] => none
      | d :: r2 =>
        if d == '\n' then none
        else (findStrEnd r2).map (· + 2)
    else (findStrEnd rest).map (· + 1)

def matchAt2 (s : List Char) : Option (List Char × List Char) :=
  if (L "print(\"").isPrefixOf s then
    (findStrEnd (s.drop 7)).map (fun i => ((s.drop 7).take i, (s.drop 7).drop (i + 2)))
  else none

theorem matchAt2_rest_lt :
    ∀ (s : List Char) (p : List Char × List Char),
      matchAt2 s = some p → p.2.length < s.length := by
  intro s p h
  unfold matchAt2 at h
  split at h
  · rename_i hpre
    obtain ⟨i, hi, hp⟩ := Option.map_eq_some'.mp h
    have h7 : 7 ≤ s.length := by
      have := ( List.isPrefixOf_iff_prefix.mp hpre).length_le
      simpa using this
    rw [← hp]
    simp [List.length_drop]
    omega
  · exact absurd h (by simp)

def search2 (s : List Char) : Bool := reSearch matchAt2 s

/-- Python `re.sub(pattern2, r'["\1"]', s)`. -/
def sub2 (s : List Char) : List Char :=
  reSub matchAt2 (fun g => '[' :: '\"' :: (g ++ '\"' :: [']'])) s

theorem sub2_cons (c : Char) (rest : List Char) :
    sub2 (c :: rest) =
      (match matchAt2 (c :: rest) with
       | some p => '[' :: '\"' :: (p.1 ++ '\"' :: ']' :: sub2 p.2)
       | none => c :: sub2 rest) := by
  show reSub _ _ _ = _
  rw [reSub_cons matchAt2_rest_lt]
  cases matchAt2 (c :: rest) <;> simp [sub2, reSub]

/-! ### Pattern 3: `print\(([a-z_][a-z0-9_]*)\)` -/

/-- Match of pattern 3 anchored at the start of `s`.  The identifier run is
greedy over `[a-z0-9_]`, and since `)` is outside that class the only viable
stop of the run is its maximal extent. -/
def matchAt3 (s : List Char) : Option (List Char × List Char) :=
  if prCall.isPrefixOf s then
    match s.drop 6 with
    | [] => none
    | c :: r =>
      if isIdentStartCh c then
        match r.dropWhile isIdentCh with
        | [] => none
        | d :: t => if d == ')' then some (c :: r.takeWhile isIdentCh, t) else none
      else none
  else none

theorem matchAt3_rest_lt :
    ∀ (s : List Char) (p : List Char × List Char),
      matchAt3 s = some p → p.2.length < s.length := by
  intro s p h
  unfold matchAt3 at h
  split at h
  · rename_i hpre
    have h6 : 6 ≤ s.length := by
      have := ( List.isPrefixOf_iff_prefix.mp hpre).length_le
      simpa [prCall, L] using this
    split at h
    · exact absurd h (by simp)
    · rename_i c r hcr
      split at h
      · split at h
        · exact absurd h (by simp)
        · rename_i d t hdt
          split at h
          · cases h
            have hlen : (c :: r).length = s.length - 6 := by
              rw [← hcr]; simp [List.length_drop]
            have hdw : (r.dropWhile isIdentCh).length ≤ r.length :=
              List.Sublist.length_le (List.dropWhile_sublist _)
            rw [hdt] at hdw
            simp at hdw hlen ⊢
            omega
          · exact absurd h (by simp)
      · exact absurd h (by simp)
  · exact absurd h (by simp)

def search3 (s : List Char) : Bool := reSearch matchAt3 s

/-- Python `re.sub(pattern3, r'[\1]', s)`. -/
def sub3 (s : List Char) : List Char := reSub matchAt3 (fun g => '[' :: (g ++ [']'])) s

theorem sub3_cons (c : Char) (rest : List Char) :
    sub3 (c :: rest) =
      (match matchAt3 (c :: rest) with
       | some p => '[' :: (p.1 ++ ']' :: sub3 p.2)
       | none => c :: sub3 rest) := by
  show reSub _ _ _ = _
  rw [reSub_cons matchAt3_rest_lt]
  cases matchAt3 (c :: rest) <;> simp [sub3, reSub]

/-! ### Pattern 4: `print\((.*?)\)(?=\s*(?:--|$))` -/

/-- Python's `$` (no `MULTILINE`): matches at the end of the string or just
before a trailing newline. -/
def dollarAt : List Char → Bool
  | [] => true
  | [c] => c == '\n'
  | _ => false

/-- The lookahead `(?=\s*(?:--|$))` at a given suffix. -/
def lookahead4 : List Char → Bool
  | [] => true
  | s@(c :: rest) =>
    if ('-' :: '-' :: []).isPrefixOf s then true
    else if dollarAt s then true
    else if isPySpace c then lookahead4 rest
    else false

/-- Index of the lazy stop of `(.*?)\)`: the first `)` (reachable without
crossing a newline) whose following suffix satisfies the lookahead. -/
def findLazy4 : List Char → Option Nat
  | [] => none
  | c :: rest =>
    if c == ')' && lookahead4 rest then some 0
    else if c == '\n' then none
    else (findLazy4 rest).map (· + 1)

def matchAt4 (s : List Char) : Option (List Char × List Char) :=
  if prCall.isPrefixOf s then
    (findLazy4 (s.drop 6)).map (fun i => ((s.drop 6).take i, (s.drop 6).drop (i + 1)))
  else none

/-- Group 1 of `re.search(pattern4, s)` (the first match, if any). -/
def find4 (s : List Char) : Option (List Char) := (reFind matchAt4 s).map Prod.fst

theorem matchAt4_rest_lt :
    ∀ (s : List Char) (p : List Char × List Char),
      matchAt4 s = some p → p.2.length < s.length := by
  intro s p h
  unfold matchAt4 at h
  split at h
  · rename_i hpre
    obtain ⟨i, hi, hp⟩ := Option.map_eq_some'.mp h
    have h6 : 6 ≤ s.length := by
      have := ( List.isPrefixOf_iff_prefix.mp hpre).length_le
      simpa [prCall, L] using this
    have hne : s.drop 6 ≠ [] := by
      intro hnil
      rw [hnil] at hi
      exact absurd hi (by simp [findLazy4])
    have h7 : 7 ≤ s.length := by
      have := List.length_lt_of_drop_ne_nil hne
      omega
    rw [← hp]
    simp [List.length_drop]
    omega
  · exact absurd h (by simp)

/-- Python `re.sub(pattern4, r'[\1]', s)`. -/
def sub4 (s : List Char) : List Char := reSub matchAt4 (fun g => '[' :: (g ++ [']'])) s

theorem sub4_cons (c : Char) (rest : List Char) :
    sub4 (c :: rest) =
      (match matchAt4 (c :: rest) with
       | some p => '[' :: (p.1 ++ ']' :: sub4 p.2)
       | none => c :: sub4 rest) := by
  show reSub _ _ _ = _
  rw [reSub_cons matchAt4_rest_lt]
  cases matchAt4 (c :: rest) <;> simp [sub4, reSub]

/-- The check `any(op in content for op in ['+', '-', '*', '/', '(', ')'])`. -/
def hasOp (content : List Char) : Bool :=
  content.any (fun c =>
    c == '+' || c == '-' || c == '*' || c == '/' || c == '(' || c == ')')

/-! ### `PrintMigrator.migrate_line`

Returns the (possibly rewritten) line together with the increment to
`self.migration_count` and the diagnostics appended to `self.errors` by
this call. -/

/-- The trailing check of `migrate_line`: log a `Could not auto-migrate`
diagnostic when the line still contains `print(` and was not changed. -/
def finalizeLine (line original_line : List Char) (line_num : Nat)
    (filename : List Char) : List Char × Nat × List Diag :=
  if containsSub prCall line = true ∧ line = original_line then
    (line, 0, [Diag.couldNotMigrate filename line_num (pyStrip line)])
  else (line, 0, [])

/-- Pattern 4 of `migrate_line` followed by the trailing check. -/
def migrateStage4 (line original_line : List Char) (line_num : Nat)
    (filename : List Char) : List Char × Nat × List Diag :=
  match find4 line with
  | some content =>
    if hasOp content then
      let l4 := sub4 line
      if l4 ≠ original_line then
        (l4, 1, [Diag.complexExpr filename line_num (pyStrip original_line)])
      else finalizeLine l4 original_line line_num filename
    else finalizeLine line original_line line_num filename
  | none => finalizeLine line original_line line_num filename

/-- Pattern 3 of `migrate_line`, falling through to pattern 4. -/
def migrateStage3 (line original_line : List Char) (line_num : Nat)
    (filename : List Char) : List Char × Nat × List Diag :=
  let l3 := if search3 line then sub3 line else line
  if search3 line = true ∧ l3 ≠ original_line then (l3, 1, [])
  else migrateStage4 l3 original_line line_num filename

/-- Pattern 2 of `migrate_line`, falling through to pattern 3. -/
def migrateStage2 (line original_line : List Char) (line_num : Nat)
    (filename : List Char) : List Char × Nat × List Diag :=
  let l2 := if search2 line then sub2 line else line
  if search2 line = true ∧ l2 ≠ original_line then (l2, 1, [])
  else migrateStage3 l2 original_line line_num filename

def migrate_line (line : List Char) (line_num : Nat) (filename : List Char) :
    List Char × Nat × List Diag :=
  let original_line := line
  let l1 := if search1 line then sub1 line else line
  if search1 line = true ∧ l1 ≠ original_line then (l1, 1, [])
  else migrateStage2 l1 original_line line_num filename

/-! ### `PrintMigrator.migrate_file` -/

/-- Python's `readlines`: split after each `\n`, keeping the terminators. -/
def splitLinesAux : List Char → List Char → List (List Char)
  | [], acc => if acc.isEmpty then [] else [acc.reverse]
  | c :: rest, acc =>
    if c == '\n' then (acc.reverse ++ ['\n']) :: splitLinesAux rest []
    else splitLinesAux rest (c :: acc)

def readlines (s : List Char) : List (List Char) := splitLinesAux s []

/-- The per-line loop of `migrate_file`: returns
`(new_lines, changed, count increment, appended diagnostics)`. -/
def migrate_lines (filename : List Char) :
    List (List Char) → Nat → Bool → List (List Char) × Bool × Nat × List Diag
  | [], _, changed => ([], changed, 0, [])
  | l :: rest, i, changed =>
    let r := migrate_line l i filename
    let changed' := changed || decide (r.1 ≠ l)
    let rs := migrate_lines filename rest (i + 1) changed'
    (r.1 :: rs.1, rs.2.1, r.2.1 + rs.2.2.1, r.2.2 ++ rs.2.2.2)

/-- Python `migrate_file`.  The file's content is `some text`, or `none` when the
read raises; in that case the exception is caught, one diagnostic is
recorded and the file is reported unchanged with empty content.  Returns
`((changed, new_content), count increment, appended diagnostics)`. -/
def migrate_file (content : Option (List Char)) (filepath : List Char) :
    (Bool × List Char) × Nat × List Diag :=
  match content with
  | none => ((false, []), 0, [Diag.readError filepath])
  | some text =>
    let r := migrate_lines filepath (readlines text) 1 false
    ((r.2.1, r.1.flatten), r.2.2.1, r.2.2.2)

/-! ### `PrintMigrator.migrate_directory` and `main` -/

/-- The mutable counters of a `PrintMigrator` instance. -/
structure MState where
  migration_count : Nat
  file_count : Nat
  errors : List Diag
deriving DecidableEq

/-- A file on disk: its path and its content (`none` = reading it raises). -/
abbrev FileEntry := List Char × Option (List Char)

/-- One iteration of the `for filepath in bst_files` loop.  `Except.error ()`
models an exception escaping `migrate_directory`: in the unchanged branch the
file is re-opened with no `try` around it, so a failing read raises. -/
def processFile (dry_run : Bool) (st : MState) (e : FileEntry) :
    Except Unit (FileEntry × MState) :=
  let r := migrate_file e.2 e.1
  let st1 : MState :=
    { st with migration_count := st.migration_count + r.2.1,
              errors := st.errors ++ r.2.2 }
  if r.1.1 then
    let st2 := { st1 with file_count := st1.file_count + 1 }
    if dry_run then Except.ok (e, st2)
    else Except.ok ((e.1, some r.1.2), st2)
  else
    match e.2 with
    | none => Except.error ()
    | some _ => Except.ok (e, st1)

def mdGo (dry_run : Bool) : List FileEntry → MState →
    Except Unit (List FileEntry × MState)
  | [], st => Except.ok ([], st)
  | e :: rest, st =>
    match processFile dry_run st e with
    | Except.error u => Except.error u
    | Except.ok (e', st') =>
      match mdGo dry_run rest st' with
      | Except.error u => Except.error u
      | Except.ok (fs, stf) => Except.ok (e' :: fs, stf)

/-- Python `migrate_directory`: `none` models a directory that does not exist
(reported, skipped); otherwise every discovered file is processed in order.
Returns the directory's files after any writes, and the updated state. -/
def migrate_directory (dir : Option (List FileEntry)) (dry_run : Bool)
    (st : MState) : Except Unit (Option (List FileEntry) × MState) :=
  match dir with
  | none => Except.ok (none, st)
  | some files =>
    match mdGo dry_run files st with
    | Except.error u => Except.error u
    | Except.ok (fs, st') => Except.ok (some fs, st')

def mainGo (dry_run : Bool) : List (Option (List FileEntry)) → MState →
    Except Unit (List (Option (List FileEntry)) × MState)
  | [], st => Except.ok ([], st)
  | d :: rest, st =>
    match migrate_directory d dry_run st with
    | Except.error u => Except.error u
    | Except.ok (d', st') =>
      match mainGo dry_run rest st' with
      | Except.error u => Except.error u
      | Except.ok (ds, stf) => Except.ok (d' :: ds, stf)

/-- The entry point `main`: process every directory, then `sys.exit(1 if migrator.errors
else 0)`.  Returns the file system after writes, the exit code, and the
final state; `Except.error ()` is an uncaught exception. -/
def mainRun (dirs : List (Option (List FileEntry))) (dry_run : Bool) :
    Except Unit (List (Option (List FileEntry)) × Nat × MState) :=
  match mainGo dry_run dirs { migration_count := 0, file_count := 0, errors := [] } with
  | Except.error u => Except.error u
  | Except.ok (ds, st) => Except.ok (ds, (if st.errors = [] then 0 else 1), st)

/-! ### Basic facts about the matching machinery -/

theorem prefixOf_trans_append {p q s : List Char}
    (h : (p ++ q).isPrefixOf s = true) : p.isPrefixOf s = true := by
  rw [ List.isPrefixOf_iff_prefix] at h ⊢
  exact (List.prefix_append p q).trans h

theorem prefixOf_mem {p s : List Char} {c : Char}
    (h : p.isPrefixOf s = true) (hc : c ∈ p) : c ∈ s :=
  ( List.isPrefixOf_iff_prefix.mp h).subset hc

theorem containsSub_eq_true_iff (pat s : List Char) :
    containsSub pat s = true ↔ pat <:+: s := by
  induction s with
  | nil => simp [containsSub, List.infix_nil]
  | cons c rest ih => simp [containsSub, List.infix_cons_iff, ih]

theorem reSearch_eq_false_iff {m : List Char → Option (List Char × List Char)}
    (hnil : m [] = none) (s : List Char) :
    reSearch m s = false ↔ ∀ t, t <:+ s → m t = none := by
  induction s with
  | nil =>
    constructor
    · intro _ t ht
      rw [List.suffix_nil.mp ht]
      exact hnil
    · intro _
      rfl
  | cons c rest ih =>
    constructor
    · intro h t ht
      have h1 : (m (c :: rest)).isSome = false ∧ reSearch m rest = false := by
        constructor
        · cases hm : m (c :: rest) with
          | none => rfl
          | some p => simp [reSearch, hm] at h
        · cases hr : reSearch m rest with
          | false => rfl
          | true => simp [reSearch, hr] at h
      rcases List.suffix_cons_iff.mp ht with rfl | ht'
      · cases hm : m (c :: rest) with
        | none => rfl
        | some p => rw [hm] at h1; simp at h1
      · exact (ih.mp h1.2) t ht'
    · intro h
      have h1 : m (c :: rest) = none := h _ (List.suffix_refl _)
      have h2 : reSearch m rest = false :=
        ih.mpr (fun t ht => h t (ht.trans (List.suffix_cons c rest)))
      simp [reSearch, h1, h2]

theorem reSearch_contains {m : List Char → Option (List Char × List Char)}
    (hnil : m [] = none)
    (hpre : ∀ t p, m t = some p → prCall.isPrefixOf t = true)
    {s : List Char} (h : reSearch m s = true) : containsSub prCall s = true := by
  rw [containsSub_eq_true_iff]
  by_contra hinf
  have hf : reSearch m s = false := by
    rw [reSearch_eq_false_iff hnil]
    intro t ht
    cases hm : m t with
    | none => rfl
    | some p =>
      have h1 : prCall <+: t := List.isPrefixOf_iff_prefix.mp (hpre t p hm)
      have h2 : prCall <:+: t := h1.isInfix
      exact absurd (h2.trans ht.isInfix) hinf
  rw [hf] at h
  cases h

theorem reSearch_of_reFind {m : List Char → Option (List Char × List Char)}
    {s : List Char} {p : List Char × List Char}
    (h : reFind m s = some p) : reSearch m s = true := by
  induction s with
  | nil => simp [reFind] at h
  | cons c rest ih =>
    cases hm : m (c :: rest) with
    | some q => simp [reSearch, hm]
    | none =>
      have h' : reFind m rest = some p := by
        simpa [reFind, hm] using h
      simp [reSearch, ih h']

theorem matchAt1_prefixOf {t : List Char} {p : List Char × List Char}
    (h : matchAt1 t = some p) : prCall.isPrefixOf t = true := by
  unfold matchAt1 at h
  split at h
  · rename_i hp
    have e : (L "print([") = prCall ++ ['['] := by decide
    rw [e] at hp
    exact prefixOf_trans_append hp
  · simp at h

theorem matchAt2_prefixOf {t : List Char} {p : List Char × List Char}
    (h : matchAt2 t = some p) : prCall.isPrefixOf t = true := by
  unfold matchAt2 at h
  split at h
  · rename_i hp
    have e : (L "print(\"") = prCall ++ ['\"'] := by decide
    rw [e] at hp
    exact prefixOf_trans_append hp
  · simp at h

theorem matchAt3_prefixOf {t : List Char} {p : List Char × List Char}
    (h : matchAt3 t = some p) : prCall.isPrefixOf t = true := by
  unfold matchAt3 at h
  split at h
  · rename_i hp; exact hp
  · simp at h

theorem matchAt4_prefixOf {t : List Char} {p : List Char × List Char}
    (h : matchAt4 t = some p) : prCall.isPrefixOf t = true := by
  unfold matchAt4 at h
  split at h
  · rename_i hp; exact hp
  · simp at h

theorem search1_contains {s : List Char} (h : search1 s = true) :
    containsSub prCall s = true :=
  reSearch_contains rfl (fun t p hm => matchAt1_prefixOf hm) h

theorem search2_contains {s : List Char} (h : search2 s = true) :
    containsSub prCall s = true :=
  reSearch_contains rfl (fun t p hm => matchAt2_prefixOf hm) h

theorem search3_contains {s : List Char} (h : search3 s = true) :
    containsSub prCall s = true :=
  reSearch_contains rfl (fun t p hm => matchAt3_prefixOf hm) h

theorem find4_contains {s : List Char} {g : List Char}
    (h : find4 s = some g) : containsSub prCall s = true := by
  unfold find4 at h
  obtain ⟨p, hp, -⟩ := Option.map_eq_some'.mp h
  exact reSearch_contains rfl (fun t p hm => matchAt4_prefixOf hm) (reSearch_of_reFind hp)

theorem matchAt1_none_of_not_mem {t : List Char} (h : ¬ '[' ∈ t) :
    matchAt1 t = none := by
  unfold matchAt1
  split
  · rename_i hp
    exact absurd (prefixOf_mem hp (by decide)) h
  · rfl

theorem matchAt2_none_of_not_mem {t : List Char} (h : ¬ '\"' ∈ t) :
    matchAt2 t = none := by
  unfold matchAt2
  split
  · rename_i hp
    exact absurd (prefixOf_mem hp (by decide)) h
  · rfl

theorem search1_eq_false_of_not_mem {s : List Char} (h : ¬ '[' ∈ s) :
    search1 s = false := by
  unfold search1
  rw [reSearch_eq_false_iff rfl]
  intro t ht
  exact matchAt1_none_of_not_mem (fun hc => h (ht.subset hc))

theorem search2_eq_false_of_not_mem {s : List Char} (h : ¬ '\"' ∈ s) :
    search2 s = false := by
  unfold search2
  rw [reSearch_eq_false_iff rfl]
  intro t ht
  exact matchAt2_none_of_not_mem (fun hc => h (ht.subset hc))

/-! ### Claim C1: the line `print(foo.bar())` -/

/-- C1 counterexample: the claim says `print(foo.bar())` is returned
byte-identical with exactly one "could not auto-migrate" diagnostic.  In
fact rule 4's pattern matches it (its group `foo.bar()` contains `(` and
`)`), so the line is rewritten and a "manual review" diagnostic is logged
instead. -/
theorem C1_counterexample :
    migrate_line (L "print(foo.bar())") 1 (L "f.bst")
      ≠ (L "print(foo.bar())", 0,
          [Diag.couldNotMigrate (L "f.bst") 1 (L "print(foo.bar())")]) := by
  decide

/-- C1 (amended): a line consisting of the call `print(foo.bar())` is
rewritten by the fallback rule to `[foo.bar()]`, the successful-rewrite
counter is incremented, and exactly one "manual review" diagnostic (not a
"could not auto-migrate" one) is appended. -/
theorem C1_fallback_rewrites (n : Nat) (fp : List Char) :
    migrate_line (L "print(foo.bar())") n fp
      = (L "[foo.bar()]", 1, [Diag.complexExpr fp n (L "print(foo.bar())")]) := by
  rfl

/-! ### Claim C7: the line `print(a + b)` -/

/-- C7: the line `print(a + b)` (closing parenthesis at end of line) is
rewritten to `[a + b]`, the successful-rewrite counter is incremented by 1,
and exactly one "manual review" diagnostic is appended. -/
theorem C7_complex_expr (n : Nat) (fp : List Char) :
    migrate_line (L "print(a + b)") n fp
      = (L "[a + b]", 1, [Diag.complexExpr fp n (L "print(a + b)")]) := by
  rfl

/-! ### Claim C2: read failures and the directory walker -/

/-- C2 counterexample: a directory with a single unreadable file.  The read
failure is caught inside `migrate_file`, but the walker's unchanged-file
branch then re-opens the same file with no `try` around it, and the
exception escapes `migrate_directory` — processing does not continue. -/
theorem C2_counterexample :
    migrate_directory (some [(L "a.bst", none)]) false
      { migration_count := 0, file_count := 0, errors := [] }
      = Except.error () := by
  rfl

/-- C2 (amended): a read failure inside `migrate_file` is caught, recorded
as exactly one diagnostic, and the file is treated as unchanged; but the
claim's "never raises" part fails: the directory walker's unchanged-file
branch re-reads the file unguarded, so for an unreadable file the exception
escapes `migrate_directory` instead of processing continuing. -/
theorem C2_read_failure (fp : List Char) (dry : Bool) (st : MState) :
    migrate_file none fp = ((false, []), 0, [Diag.readError fp]) ∧
    migrate_directory (some [(fp, none)]) dry st = Except.error () := by
  exact ⟨rfl, rfl⟩

/-! ### Claim C3: `print([X])` unwrapping -/

/-- Modelled from the spec's side condition in C3 ("bracketed content `X`
not itself containing an unbalanced `]`"): scanning left to right, every
`]` must close an earlier `[`. -/
def noUnbalAux : Nat → List Char → Bool
  | _, [] => true
  | depth, c :: rest =>
    if c == '[' then noUnbalAux (depth + 1) rest
    else if c == ']' then
      match depth with
      | 0 => false
      | d + 1 => noUnbalAux d rest
    else noUnbalAux depth rest

def spec_noUnbalancedRBracket (X : List Char) : Bool := noUnbalAux 0 X

/-- C3 counterexample: `X = "[])"` has no unbalanced `]`, yet the lazy
group of pattern 1 stops at the first `])`, which here lies inside `X`:
the line `print([[])])` becomes `[[]])`, not `[` ++ X ++ `]` = `[[])]`. -/
theorem C3_counterexample :
    spec_noUnbalancedRBracket (L "[])") = true ∧
    (migrate_line (L "print([[])])") 1 (L "f.bst")).1 = L "[[]])" ∧
    L "[[]])" ≠ '[' :: (L "[])" ++ [']']) := by
  decide

theorem findClose_append (X : List Char)
    (h1 : containsSub (']' :: ')' :: []) X = false) (h2 : '\n' ∉ X) :
    findClose (X ++ ']' :: ')' :: []) = some X.length := by
  induction X with
  | nil => decide
  | cons c rest ih =>
    have h1' : ((']' :: ')' :: []).isPrefixOf (c :: rest)) = false ∧
        containsSub (']' :: ')' :: []) rest = false := by
      rw [containsSub] at h1
      constructor
      · cases hp : (']' :: ')' :: []).isPrefixOf (c :: rest) with
        | false => rfl
        | true => rw [hp] at h1; simp at h1
      · cases hcs : containsSub (']' :: ')' :: []) rest with
        | false => rfl
        | true => rw [hcs] at h1; simp at h1
    have h2c : ('\n' : Char) ≠ c := fun hx => h2 (hx ▸ List.mem_cons_self c rest)
    have h2r : '\n' ∉ rest := fun hx => h2 (List.mem_cons_of_mem c hx)
    have hpre : ((']' :: ')' :: []).isPrefixOf (c :: (rest ++ ']' :: ')' :: []))) = false := by
      cases rest with
      | nil =>
        simp [List.isPrefixOf]
      | cons d r' =>
        have := h1'.1
        simp [List.isPrefixOf] at this ⊢
        intro hc hd
        exact this hc hd
    have hc : (c == '\n') = false := by
      cases hcc : c == '\n' with
      | false => rfl
      | true => exact absurd (beq_iff_eq.mp hcc).symm h2c
    rw [List.cons_append, findClose, hpre, if_neg (by simp), hc, if_neg (by simp),
      ih h1'.2 h2r]
    rfl

theorem prefixOf_self_append (p t : List Char) : p.isPrefixOf (p ++ t) = true :=
  List.isPrefixOf_iff_prefix.mpr (List.prefix_append p t)

theorem matchAt1_line (X : List Char)
    (h1 : containsSub (']' :: ')' :: []) X = false) (h2 : '\n' ∉ X) :
    matchAt1 (L "print([" ++ (X ++ ']' :: ')' :: [])) = some (X, []) := by
  unfold matchAt1
  rw [if_pos (prefixOf_self_append _ _)]
  have hd : (L "print([" ++ (X ++ ']' :: ')' :: [])).drop 7 = X ++ ']' :: ')' :: [] :=
    List.drop_left' (by decide)
  rw [hd, findClose_append X h1 h2, Option.map_some']
  rw [List.take_left' rfl, List.drop_of_length_le (by simp)]

/-- C3 (amended): for every bracketed content `X` that contains no `])`
substring and no newline, the line `print([X])` is rewritten to `[X]`, with
one counter increment and no diagnostics.  (The spec's weaker side
condition "no unbalanced `]`" does not suffice; see the counterexample.) -/
theorem C3_bracket_unwrap (X : List Char) (n : Nat) (fp : List Char)
    (h1 : containsSub (']' :: ')' :: []) X = false) (h2 : '\n' ∉ X) :
    migrate_line (L "print([" ++ (X ++ ']' :: ')' :: [])) n fp
      = ('[' :: (X ++ [']']), 1, []) := by
  have hm1 : matchAt1 (L "print([" ++ (X ++ ']' :: ')' :: [])) = some (X, []) :=
    matchAt1_line X h1 h2
  have hcons : L "print([" ++ (X ++ ']' :: ')' :: [])
      = 'p' :: (L "rint([" ++ (X ++ ']' :: ')' :: [])) := rfl
  have hsearch : search1 (L "print([" ++ (X ++ ']' :: ')' :: [])) = true := by
    unfold search1
    rw [hcons, reSearch, ← hcons, hm1]
    rfl
  have hsub : sub1 (L "print([" ++ (X ++ ']' :: ')' :: [])) = '[' :: (X ++ [']']) := by
    rw [hcons, sub1_cons, ← hcons, hm1]
    rfl
  have hne : '[' :: (X ++ [']']) ≠ L "print([" ++ (X ++ ']' :: ')' :: []) := by
    intro heq
    have hlen := congrArg List.length heq
    have h7 : (L "print([").length = 7 := rfl
    simp [List.length_append, h7] at hlen
  unfold migrate_line
  rw [hsearch]
  simp only [eq_self_iff_true, if_true, true_and]
  rw [hsub, if_pos hne]

/-- C3 witness: the amended theorem applied at `X = "hi"`. -/
theorem C3_witness :
    migrate_line (L "print([" ++ (L "hi" ++ ']' :: ')' :: [])) 1 (L "f.bst")
      = ('[' :: (L "hi" ++ [']']), 1, []) :=
  C3_bracket_unwrap (L "hi") 1 (L "f.bst") (by decide) (by decide)

/-! ### Claim C9: per-file invariants -/

theorem finalizeLine_inc (l o : List Char) (n : Nat) (fp : List Char) :
    (finalizeLine l o n fp).2.1 = 0 := by
  unfold finalizeLine
  split <;> rfl

theorem migrateStage4_inc_le_one (l o : List Char) (n : Nat) (fp : List Char) :
    (migrateStage4 l o n fp).2.1 ≤ 1 := by
  simp only [migrateStage4]
  repeat' split
  all_goals simp [finalizeLine_inc]

theorem migrateStage3_inc_le_one (l o : List Char) (n : Nat) (fp : List Char) :
    (migrateStage3 l o n fp).2.1 ≤ 1 := by
  simp only [migrateStage3]
  repeat' split
  all_goals first
    | simp
    | exact migrateStage4_inc_le_one _ _ _ _

theorem migrateStage2_inc_le_one (l o : List Char) (n : Nat) (fp : List Char) :
    (migrateStage2 l o n fp).2.1 ≤ 1 := by
  simp only [migrateStage2]
  repeat' split
  all_goals first
    | simp
    | exact migrateStage3_inc_le_one _ _ _ _

theorem migrate_line_inc_le_one (l : List Char) (n : Nat) (fp : List Char) :
    (migrate_line l n fp).2.1 ≤ 1 := by
  simp only [migrate_line]
  repeat' split
  all_goals first
    | simp
    | exact migrateStage2_inc_le_one _ _ _ _

theorem migrate_lines_spec (fp : List Char) :
    ∀ (lines : List (List Char)) (i : Nat) (ch : Bool),
      (migrate_lines fp lines i ch).1.length = lines.length ∧
      (migrate_lines fp lines i ch).2.2.1 ≤ lines.length ∧
      ((migrate_lines fp lines i ch).2.1 = true ↔
        ch = true ∨ ∃ p ∈ lines.zip (migrate_lines fp lines i ch).1, p.1 ≠ p.2) := by
  intro lines
  induction lines with
  | nil =>
    intro i ch
    refine ⟨rfl, by simp [migrate_lines], ?_⟩
    simp [migrate_lines]
  | cons l rest ih =>
    intro i ch
    obtain ⟨ihlen, ihle, ihiff⟩ := ih (i + 1) (ch || decide ((migrate_line l i fp).1 ≠ l))
    simp only [migrate_lines]
    refine ⟨by simpa using ihlen, ?_, ?_⟩
    · have h1 := migrate_line_inc_le_one l i fp
      simp only [List.length_cons]
      omega
    · rw [ihiff]
      simp only [List.zip_cons_cons, List.mem_cons, Bool.or_eq_true,
        decide_eq_true_eq]
      constructor
      · rintro (⟨hch | hne⟩ | ⟨p, hp, hpne⟩)
        · exact Or.inl hch
        · exact Or.inr ⟨(l, (migrate_line l i fp).1), Or.inl rfl, fun hx => hne hx.symm⟩
        · exact Or.inr ⟨p, Or.inr hp, hpne⟩
      · rintro (hch | ⟨p, rfl | hp, hpne⟩)
        · exact Or.inl (Or.inl hch)
        · exact Or.inl (Or.inr (fun hx => hpne hx.symm))
        · exact Or.inr ⟨p, hp, hpne⟩

/-- C9: for every file, the successful-rewrite increments contributed by
the file are at most its number of lines, and the file is reported changed
iff at least one output line differs from its corresponding input line. -/
theorem C9_file_invariant (text : List Char) (fp : List Char) :
    (migrate_lines fp (readlines text) 1 false).2.2.1 ≤ (readlines text).length ∧
    ((migrate_file (some text) fp).1.1 = true ↔
      ∃ p ∈ (readlines text).zip (migrate_lines fp (readlines text) 1 false).1,
        p.1 ≠ p.2) := by
  obtain ⟨-, hle, hiff⟩ := migrate_lines_spec fp (readlines text) 1 false
  refine ⟨hle, ?_⟩
  show (migrate_lines fp (readlines text) 1 false).2.1 = true ↔ _
  rw [hiff]
  simp

/-! ### Claim C5: exit status -/

/-- C5: whenever the run terminates normally, the process exit status is 1
iff at least one diagnostic (of any kind) was accumulated, and 0 otherwise. -/
theorem C5_exit_code (dirs : List (Option (List FileEntry))) (dry : Bool)
    (out : List (Option (List FileEntry)) × Nat × MState)
    (h : mainRun dirs dry = Except.ok out) :
    out.2.1 = 1 ↔ out.2.2.errors ≠ [] := by
  unfold mainRun at h
  cases hg : mainGo dry dirs { migration_count := 0, file_count := 0, errors := [] } with
  | error u => rw [hg] at h; cases h
  | ok p =>
    obtain ⟨ds, st⟩ := p
    rw [hg] at h
    cases h
    show (if st.errors = [] then 0 else 1) = 1 ↔ st.errors ≠ []
    by_cases he : st.errors = []
    · simp [he]
    · simp [he]

/-- C5 witness: a run over one directory with one file whose sole line
cannot be auto-migrated; the exit code is 1 and the diagnostics list is
nonempty. -/
theorem C5_witness :
    ((1 : Nat) = 1 ↔
      ([Diag.couldNotMigrate (L "a.bst") 1 (L "print(X)")] : List Diag) ≠ []) :=
  C5_exit_code [some [(L "a.bst", some (L "print(X)\n"))]] false
    ([some [(L "a.bst", some (L "print(X)\n"))]], 1,
      { migration_count := 0, file_count := 0,
        errors := [Diag.couldNotMigrate (L "a.bst") 1 (L "print(X)")] })
    (by rfl)

/-! ### Claim C8: preview mode -/

theorem processFile_dry (st : MState) (e : FileEntry) :
    processFile true st e =
      (match processFile false st e with
       | Except.error u => Except.error u
       | Except.ok p => Except.ok (e, p.2)) := by
  simp only [processFile]
  cases hch : (migrate_file e.2 e.1).1.1 with
  | true => simp
  | false =>
    simp
    cases e.2 with
    | none => rfl
    | some t => rfl

theorem mdGo_cons (d : Bool) (e : FileEntry) (rest : List FileEntry) (st : MState) :
    mdGo d (e :: rest) st =
      (match processFile d st e with
       | Except.error u => Except.error u
       | Except.ok p =>
         match mdGo d rest p.2 with
         | Except.error u => Except.error u
         | Except.ok q => Except.ok (p.1 :: q.1, q.2)) := by
  show (match processFile d st e with
        | Except.error u => Except.error u
        | Except.ok (e', st') =>
          match mdGo d rest st' with
          | Except.error u => Except.error u
          | Except.ok (fs, stf) => Except.ok (e' :: fs, stf)) = _
  cases processFile d st e with
  | error u => rfl
  | ok p =>
    obtain ⟨e', st'⟩ := p
    show (match mdGo d rest st' with
          | Except.error u => Except.error u
          | Except.ok (fs, stf) => Except.ok (e' :: fs, stf)) =
        (match mdGo d rest st' with
         | Except.error u => Except.error u
         | Except.ok q => Except.ok (e' :: q.1, q.2))
    cases mdGo d rest st' with
    | error u => rfl
    | ok q =>
      obtain ⟨fs, stf⟩ := q
      rfl

theorem mdGo_dry : ∀ (files : List FileEntry) (st : MState),
    mdGo true files st =
      (match mdGo false files st with
       | Except.error u => Except.error u
       | Except.ok p => Except.ok (files, p.2)) := by
  intro files
  induction files with
  | nil => intro st; rfl
  | cons e rest ih =>
    intro st
    rw [mdGo_cons, mdGo_cons, processFile_dry]
    cases hp : processFile false st e with
    | error u => rfl
    | ok p =>
      show (match mdGo true rest p.2 with
            | Except.error u => Except.error u
            | Except.ok q => Except.ok (e :: q.1, q.2)) =
          (match (match mdGo false rest p.2 with
                  | Except.error u => Except.error u
                  | Except.ok q => Except.ok (p.1 :: q.1, q.2)) with
           | Except.error u => Except.error u
           | Except.ok r => Except.ok (e :: rest, r.2))
      rw [ih p.2]
      cases mdGo false rest p.2 with
      | error u => rfl
      | ok q => rfl

/-- C8: with preview mode set the directory's files are left exactly as
they were (no file is written), while the run outcome — a crash, or the
final counters and diagnostics — is identical to that of the live run on
the same input. -/
theorem C8_dry_run (dir : Option (List FileEntry)) (st : MState) :
    migrate_directory dir true st =
      (match migrate_directory dir false st with
       | Except.error u => Except.error u
       | Except.ok p => Except.ok (dir, p.2)) := by
  cases dir with
  | none => rfl
  | some files =>
    show (match mdGo true files st with
          | Except.error u => Except.error u
          | Except.ok (fs, st') => Except.ok (some fs, st')) =
        (match (match mdGo false files st with
                | Except.error u => Except.error u
                | Except.ok (fs, st') => Except.ok (some fs, st')) with
         | Except.error u => Except.error u
         | Except.ok p => Except.ok (some files, p.2))
    rw [mdGo_dry]
    cases mdGo false files st with
    | error u => rfl
    | ok p =>
      obtain ⟨fs, st'⟩ := p
      rfl

/-! ### Claim C4: lines without `print(` are untouched -/

theorem migrate_line_no_print (line : List Char) (n : Nat) (fp : List Char)
    (h : containsSub prCall line = false) :
    migrate_line line n fp = (line, 0, []) := by
  have hs1 : search1 line = false := by
    cases hx : search1 line with
    | false => rfl
    | true => rw [search1_contains hx] at h; cases h
  have hs2 : search2 line = false := by
    cases hx : search2 line with
    | false => rfl
    | true => rw [search2_contains hx] at h; cases h
  have hs3 : search3 line = false := by
    cases hx : search3 line with
    | false => rfl
    | true => rw [search3_contains hx] at h; cases h
  have hf4 : find4 line = none := by
    cases hx : find4 line with
    | none => rfl
    | some g => rw [find4_contains hx] at h; cases h
  simp [migrate_line, migrateStage2, migrateStage3, migrateStage4, finalizeLine,
    hs1, hs2, hs3, hf4, h]

theorem splitLinesAux_infix :
    ∀ (s acc l : List Char), l ∈ splitLinesAux s acc → l <:+: (acc.reverse ++ s) := by
  intro s
  induction s with
  | nil =>
    intro acc l hl
    unfold splitLinesAux at hl
    split at hl
    · simp at hl
    · simp at hl
      subst hl
      simp
  | cons c rest ih =>
    intro acc l hl
    unfold splitLinesAux at hl
    split at hl
    · rename_i hc
      have hceq : c = '\n' := beq_iff_eq.mp hc
      subst hceq
      rcases List.mem_cons.mp hl with rfl | hl'
      · exact ⟨[], rest, by simp⟩
      · have hrest := ih [] l hl'
        simp at hrest
        exact hrest.trans ⟨acc.reverse ++ ['\n'], [], by simp⟩
    · have := ih (c :: acc) l hl
      simpa [List.reverse_cons, List.append_assoc] using this

theorem splitLinesAux_flatten :
    ∀ (s acc : List Char), (splitLinesAux s acc).flatten = acc.reverse ++ s := by
  intro s
  induction s with
  | nil =>
    intro acc
    unfold splitLinesAux
    split
    · rename_i he
      rw [List.isEmpty_iff] at he
      simp [he]
    · simp
  | cons c rest ih =>
    intro acc
    unfold splitLinesAux
    split
    · rename_i hc
      have hceq : c = '\n' := beq_iff_eq.mp hc
      subst hceq
      simp [ih []]
    · simp [ih (c :: acc)]

theorem readlines_part {text l : List Char} (h : l ∈ readlines text) :
    l <:+: text := by
  have := splitLinesAux_infix text [] l h
  simpa using this

theorem readlines_flatten (text : List Char) : (readlines text).flatten = text := by
  have := splitLinesAux_flatten text []
  simpa using this

theorem migrate_lines_clean (fp : List Char) :
    ∀ (lines : List (List Char)) (i : Nat),
      (∀ l ∈ lines, containsSub prCall l = false) →
      migrate_lines fp lines i false = (lines, false, 0, []) := by
  intro lines
  induction lines with
  | nil => intro i _; rfl
  | cons l rest ih =>
    intro i h
    have hl := h l (List.mem_cons_self _ _)
    have hr : ∀ x ∈ rest, containsSub prCall x = false :=
      fun x hx => h x (List.mem_cons_of_mem _ hx)
    simp only [migrate_lines, migrate_line_no_print l i fp hl]
    simp [ih (i + 1) hr]

/-- C4: a line without the substring `print(` is returned exactly unchanged
with no diagnostic appended; hence a second run over fully migrated content
(no remaining `print(` substring) reports the file unchanged, leaves its
text byte-identical, and records zero increments and zero new diagnostics. -/
theorem C4_no_print_fixpoint :
    (∀ (line : List Char) (n : Nat) (fp : List Char),
       containsSub prCall line = false → migrate_line line n fp = (line, 0, [])) ∧
    (∀ (text fp : List Char), containsSub prCall text = false →
       migrate_file (some text) fp = ((false, text), 0, [])) := by
  constructor
  · exact migrate_line_no_print
  · intro text fp h
    have hlines : ∀ l ∈ readlines text, containsSub prCall l = false := by
      intro l hl
      cases hx : containsSub prCall l with
      | false => rfl
      | true =>
        exfalso
        have hinf : prCall <:+: text :=
          ((containsSub_eq_true_iff prCall l).mp hx).trans (readlines_part hl)
        rw [(containsSub_eq_true_iff prCall text).mpr hinf] at h
        cases h
    simp only [migrate_file, migrate_lines_clean fp (readlines text) 1 hlines,
      readlines_flatten]

/-- C4 witness: a clean line and already-migrated file content. -/
theorem C4_witness :
    migrate_line (L "let x = 1") 1 (L "f.bst") = (L "let x = 1", 0, []) ∧
    migrate_file (some (L "[\"hi\"]\n[x]\n")) (L "f.bst")
      = ((false, L "[\"hi\"]\n[x]\n"), 0, []) :=
  ⟨C4_no_print_fixpoint.1 (L "let x = 1") 1 (L "f.bst") (by decide),
   C4_no_print_fixpoint.2 (L "[\"hi\"]\n[x]\n") (L "f.bst") (by decide)⟩

/-! ### Claim C6: the bare-identifier rule

Definitions formalising the claim's notion of argument shapes: a
lowercase identifier (exactly rule 3's class), and a "defective"
identifier-like argument — dotted segments of letters/digits/underscores,
optionally a trailing `()` call — containing an uppercase letter, a dot,
or parentheses. -/

/-- The exact class of rule 3: `[a-z_][a-z0-9_]*`. -/
def isLowIdent : List Char → Bool
  | [] => false
  | c :: r => isIdentStartCh c && r.all isIdentCh

/-- A character allowed in an identifier segment: `[A-Za-z0-9_]`. -/
def isSegCh (c : Char) : Bool :=
  isLowerCh c || isUpperCh c || isDigitCh c || decide (c.toNat = 95)

/-- A character occurring in a dotted identifier: a segment character or `.`. -/
def isMidCh (c : Char) : Bool := isSegCh c || decide (c.toNat = 46)

def isSegment (s : List Char) : Bool := !s.isEmpty && s.all isSegCh

/-- The argument `seg1.seg2...segk`; `dottedArg` appends `()` when `call` is set. -/
def joinDots : List (List Char) → List Char
  | [] => []
  | [s] => s
  | s :: rest => s ++ '.' :: joinDots rest

def dottedArg (segs : List (List Char)) (call : Bool) : List Char :=
  joinDots segs ++ (if call then '(' :: ')' :: [] else [])

/-- The argument contains an uppercase letter, a dot (≥ 2 segments), or
parentheses (a call). -/
def defectiveArg (segs : List (List Char)) (call : Bool) : Bool :=
  segs.any (fun s => s.any isUpperCh) || decide (2 ≤ segs.length) || call

theorem ne_of_class {p : Char → Bool} {c d : Char} (hc : p c = true)
    (hd : p d = false) : c ≠ d :=
  fun he => by rw [he, hd] at hc; cases hc

theorem identStart_identCh (c : Char) (h : isIdentStartCh c = true) :
    isIdentCh c = true := by
  simp [isIdentStartCh] at h
  simp [isIdentCh]
  tauto

/-! Stage-plumbing lemmas: how `migrate_line` falls through its rules. -/

theorem migrate_line_stage2 (line : List Char) (n : Nat) (fp : List Char)
    (hs1 : search1 line = false) :
    migrate_line line n fp = migrateStage2 line line n fp := by
  unfold migrate_line
  rw [hs1]
  simp

theorem migrateStage2_to3 (line o : List Char) (n : Nat) (fp : List Char)
    (hs2 : search2 line = false) :
    migrateStage2 line o n fp = migrateStage3 line o n fp := by
  unfold migrateStage2
  rw [hs2]
  simp

theorem migrateStage3_to4 (line o : List Char) (n : Nat) (fp : List Char)
    (hs3 : search3 line = false) :
    migrateStage3 line o n fp = migrateStage4 line o n fp := by
  unfold migrateStage3
  rw [hs3]
  simp

theorem migrateStage3_fires (line : List Char) (n : Nat) (fp : List Char)
    (hs3 : search3 line = true) (hne : sub3 line ≠ line) :
    migrateStage3 line line n fp = (sub3 line, 1, []) := by
  unfold migrateStage3
  rw [hs3]
  simp [hne]

theorem migrateStage4_complex (line : List Char) (n : Nat) (fp : List Char)
    {content : List Char}
    (hf : find4 line = some content) (hop : hasOp content = true)
    (hne : sub4 line ≠ line) :
    migrateStage4 line line n fp
      = (sub4 line, 1, [Diag.complexExpr fp n (pyStrip line)]) := by
  unfold migrateStage4
  rw [hf]
  simp [hop, hne]

theorem containsSub_of_prefixOf {pat s : List Char} (h : pat.isPrefixOf s = true) :
    containsSub pat s = true := by
  cases s with
  | nil => simpa [containsSub] using h
  | cons c r => simp [containsSub, h]

theorem migrateStage4_noop_diag (line : List Char) (n : Nat) (fp : List Char)
    {content : List Char}
    (hf : find4 line = some content) (hop : hasOp content = false)
    (hcontains : containsSub prCall line = true) :
    migrateStage4 line line n fp
      = (line, 0, [Diag.couldNotMigrate fp n (pyStrip line)]) := by
  unfold migrateStage4 finalizeLine
  rw [hf]
  simp [hop, hcontains]

theorem prCall_length : prCall.length = 6 := rfl

theorem matchAt3_full (X : List Char) :
    matchAt3 (prCall ++ X) =
      (match X with
       | [] => none
       | c :: r =>
         if isIdentStartCh c then
           match r.dropWhile isIdentCh with
           | [] => none
           | d :: t => if d == ')' then some (c :: r.takeWhile isIdentCh, t) else none
         else none) := by
  unfold matchAt3
  rw [if_pos (prefixOf_self_append _ _), List.drop_left' prCall_length]

theorem matchAt3_ident (v : List Char) (hv : isLowIdent v = true) :
    matchAt3 (prCall ++ (v ++ [')'])) = some (v, []) := by
  cases v with
  | nil => simp [isLowIdent] at hv
  | cons c r =>
    rw [isLowIdent] at hv
    simp only [Bool.and_eq_true, List.all_eq_true] at hv
    obtain ⟨hstart, hall⟩ := hv
    rw [List.cons_append, matchAt3_full]
    show (if isIdentStartCh c then
            match (r ++ [')']).dropWhile isIdentCh with
            | [] => none
            | d :: t =>
              if d == ')' then some (c :: (r ++ [')']).takeWhile isIdentCh, t)
              else none
          else none) = some (c :: r, [])
    rw [if_pos hstart]
    have hdw : (r ++ [')']).dropWhile isIdentCh = [')'] := by
      rw [List.dropWhile_append]
      simp [List.dropWhile_eq_nil_iff.mpr hall, isIdentCh, isLowerCh, isDigitCh]
    have htw : (r ++ [')']).takeWhile isIdentCh = r := by
      rw [List.takeWhile_append_of_pos hall]
      simp [List.takeWhile_cons, isIdentCh, isLowerCh, isDigitCh]
    rw [hdw, htw]
    simp

theorem search3_head {s : List Char} {c : Char} {rest : List Char}
    (he : s = c :: rest) {p : List Char × List Char}
    (hm : matchAt3 s = some p) : search3 s = true := by
  subst he
  unfold search3
  rw [reSearch, hm]
  rfl

theorem sub3_head {c : Char} {rest : List Char} {v : List Char}
    (hm : matchAt3 (c :: rest) = some (v, [])) :
    sub3 (c :: rest) = '[' :: (v ++ [']']) := by
  rw [sub3_cons, hm]
  rfl

theorem mem_ident_line {v : List Char} (hvall : ∀ c ∈ v, isIdentCh c = true)
    {d : Char} (hd : isIdentCh d = false) (hd1 : d ∉ prCall) (hd2 : d ≠ ')') :
    d ∉ (prCall ++ (v ++ [')'])) := by
  intro hm
  rcases List.mem_append.mp hm with h1 | h2
  · exact hd1 h1
  rcases List.mem_append.mp h2 with h3 | h4
  · rw [hvall d h3] at hd; cases hd
  · simp at h4; exact hd2 h4

/-- C6 part 1 core: `print(v)` for a rule-3 identifier `v` becomes `[v]`. -/
theorem migrate_line_ident (v : List Char) (n : Nat) (fp : List Char)
    (hv : isLowIdent v = true) :
    migrate_line (prCall ++ (v ++ [')'])) n fp = ('[' :: (v ++ [']']), 1, []) := by
  have hvall : ∀ c ∈ v, isIdentCh c = true := by
    cases v with
    | nil => simp [isLowIdent] at hv
    | cons c r =>
      rw [isLowIdent] at hv
      simp only [Bool.and_eq_true, List.all_eq_true] at hv
      intro x hx
      rcases List.mem_cons.mp hx with rfl | hxr
      · exact identStart_identCh _ hv.1
      · exact hv.2 x hxr
  have hnb : '[' ∉ (prCall ++ (v ++ [')'])) :=
    mem_ident_line hvall (by decide) (by decide) (by decide)
  have hnq : '\"' ∉ (prCall ++ (v ++ [')'])) :=
    mem_ident_line hvall (by decide) (by decide) (by decide)
  have hs1 : search1 (prCall ++ (v ++ [')'])) = false :=
    search1_eq_false_of_not_mem hnb
  have hs2 : search2 (prCall ++ (v ++ [')'])) = false :=
    search2_eq_false_of_not_mem hnq
  have hm3 : matchAt3 (prCall ++ (v ++ [')'])) = some (v, []) := matchAt3_ident v hv
  have hcons : prCall ++ (v ++ [')']) = 'p' :: (L "rint(" ++ (v ++ [')'])) := rfl
  have hs3 : search3 (prCall ++ (v ++ [')'])) = true := search3_head hcons hm3
  have hsub3 : sub3 (prCall ++ (v ++ [')'])) = '[' :: (v ++ [']']) := by
    rw [hcons] at hm3 ⊢
    exact sub3_head hm3
  have hne : sub3 (prCall ++ (v ++ [')'])) ≠ (prCall ++ (v ++ [')'])) := by
    rw [hsub3]
    intro heq
    have hlen := congrArg List.length heq
    simp [prCall, L] at hlen
  rw [migrate_line_stage2 _ n fp hs1, migrateStage2_to3 _ _ n fp hs2,
    migrateStage3_fires _ n fp hs3 hne, hsub3]

theorem prefixOf_append_cases :
    ∀ (p Y T : List Char), p.isPrefixOf (Y ++ T) = true →
      p.isPrefixOf Y = true ∨
        (Y.isPrefixOf p = true ∧ (p.drop Y.length).isPrefixOf T = true) := by
  intro p
  induction p with
  | nil => intro Y T _; left; simp [List.isPrefixOf]
  | cons a p' ih =>
    intro Y T h
    cases Y with
    | nil =>
      right
      exact ⟨rfl, by simpa using h⟩
    | cons b Y' =>
      rw [List.cons_append, List.isPrefixOf] at h
      simp only [Bool.and_eq_true] at h
      obtain ⟨hab, h'⟩ := h
      rcases ih Y' T h' with h1 | ⟨h2, h3⟩
      · left
        rw [List.isPrefixOf]
        simp [hab, h1]
      · right
        constructor
        · rw [List.isPrefixOf]
          simp only [Bool.and_eq_true]
          exact ⟨by rw [beq_iff_eq] at hab ⊢; exact hab.symm, h2⟩
        · simpa using h3
  
theorem suffix_append_cases {t l1 l2 : List Char} (h : t <:+ l1 ++ l2) :
    t <:+ l2 ∨ ∃ s, s <:+ l1 ∧ t = s ++ l2 := by
  induction l1 with
  | nil => left; simpa using h
  | cons a l1' ih =>
    rw [List.cons_append] at h
    rcases List.suffix_cons_iff.mp h with rfl | h'
    · right
      exact ⟨a :: l1', List.suffix_refl _, rfl⟩
    · rcases ih h' with h1 | ⟨s, hs, rfl⟩
      · left; exact h1
      · right
        exact ⟨s, hs.trans (List.suffix_cons a l1'), rfl⟩

theorem prCall_not_prefixOf_of_ne {c : Char} (hc : c ≠ 'p') (rest : List Char) :
    prCall.isPrefixOf (c :: rest) = false := by
  show (('p' :: L "rint(").isPrefixOf (c :: rest)) = false
  rw [List.isPrefixOf]
  have : ('p' == c) = false := beq_eq_false_iff_ne.mpr (fun h => hc h.symm)
  simp [this]

theorem matchAt3_none_of_head_ne {c : Char} (hc : c ≠ 'p') (rest : List Char) :
    matchAt3 (c :: rest) = none := by
  unfold matchAt3
  rw [prCall_not_prefixOf_of_ne hc rest]
  simp

theorem matchAt3_none_mid (y T : List Char)
    (hy : ∀ c ∈ y, isMidCh c = true)
    (hT : T = [')'] ∨ T = ['(', ')', ')']) :
    matchAt3 (y ++ T) = none := by
  cases hp : prCall.isPrefixOf (y ++ T) with
  | false => unfold matchAt3; rw [hp]; simp
  | true =>
    rcases prefixOf_append_cases prCall y T hp with hY | ⟨hYp, hdrop⟩
    · exact absurd (hy '(' (prefixOf_mem hY (by decide))) (by decide)
    · have hyt : y = prCall.take y.length :=
        List.prefix_iff_eq_take.mp ( List.isPrefixOf_iff_prefix.mp hYp)
      have hylen : y.length ≤ 6 := by
        have := ( List.isPrefixOf_iff_prefix.mp hYp).length_le
        simpa [prCall, L] using this
      have hcases : y.length = 0 ∨ y.length = 1 ∨ y.length = 2 ∨ y.length = 3 ∨
          y.length = 4 ∨ y.length = 5 ∨ y.length = 6 := by omega
      rcases hT with rfl | rfl <;>
        rcases hcases with hk | hk | hk | hk | hk | hk | hk <;>
          rw [hk] at hyt <;> subst hyt <;>
            first
              | (exact absurd hdrop (by rw [hk]; decide))
              | decide

theorem dropWhile_head_facts {p : Char → Bool} :
    ∀ {l : List Char} {d : Char} {t : List Char},
      l.dropWhile p = d :: t → p d = false ∧ d ∈ l := by
  intro l
  induction l with
  | nil => intro d t h; simp at h
  | cons a l' ih =>
    intro d t h
    rw [List.dropWhile_cons] at h
    split at h
    · obtain ⟨h1, h2⟩ := ih h
      exact ⟨h1, List.mem_cons_of_mem _ h2⟩
    · rename_i hpa
      cases h
      exact ⟨by simpa using hpa, List.mem_cons_self _ _⟩

theorem matchAt3_none_defect (B : List Char)
    (hB : ∀ c ∈ B, isMidCh c = true)
    (hdef : ∃ c ∈ B, isIdentCh c = false) :
    matchAt3 (prCall ++ (B ++ [')'])) = none := by
  rw [matchAt3_full]
  cases B with
  | nil =>
    obtain ⟨c, hc, -⟩ := hdef
    simp at hc
  | cons c r =>
    show (if isIdentStartCh c then
            match (r ++ [')']).dropWhile isIdentCh with
            | [] => none
            | d :: t =>
              if d == ')' then some (c :: (r ++ [')']).takeWhile isIdentCh, t)
              else none
          else none) = none
    cases hstart : isIdentStartCh c with
    | false => simp
    | true =>
      rw [if_pos rfl]
      obtain ⟨x, hx, hxid⟩ := hdef
      have hxr : x ∈ r := by
        rcases List.mem_cons.mp hx with rfl | hxr
        · rw [identStart_identCh _ hstart] at hxid; cases hxid
        · exact hxr
      have hrne : r.dropWhile isIdentCh ≠ [] := by
        rw [Ne, List.dropWhile_eq_nil_iff]
        push_neg
        exact ⟨x, hxr, by simp [hxid]⟩
      obtain ⟨d, t, hdt⟩ : ∃ d t, r.dropWhile isIdentCh = d :: t := by
        cases hdw : r.dropWhile isIdentCh with
        | nil => exact absurd hdw hrne
        | cons d t => exact ⟨d, t, rfl⟩
      obtain ⟨-, hdr⟩ := dropWhile_head_facts hdt
      have hdw2 : (r ++ [')']).dropWhile isIdentCh = d :: (t ++ [')']) := by
        rw [List.dropWhile_append, hdt]
        simp
      rw [hdw2]
      have hdne : (d == ')') = false :=
        beq_eq_false_iff_ne.mpr (ne_of_class (hB d (List.mem_cons_of_mem _ hdr)) (by decide))
      simp [hdne]

theorem matchAt3_none_call (B : List Char)
    (hB : ∀ c ∈ B, isMidCh c = true) :
    matchAt3 (prCall ++ (B ++ ['(', ')', ')'])) = none := by
  rw [matchAt3_full]
  cases B with
  | nil => decide
  | cons c r =>
    show (if isIdentStartCh c then
            match (r ++ ['(', ')', ')']).dropWhile isIdentCh with
            | [] => none
            | d :: t =>
              if d == ')' then
                some (c :: (r ++ ['(', ')', ')']).takeWhile isIdentCh, t)
              else none
          else none) = none
    cases hstart : isIdentStartCh c with
    | false => simp
    | true =>
      rw [if_pos rfl]
      by_cases hall : ∀ x ∈ r, isIdentCh x = true
      · have hdw : (r ++ ['(', ')', ')']).dropWhile isIdentCh = ['(', ')', ')'] := by
          rw [List.dropWhile_append]
          simp [List.dropWhile_eq_nil_iff.mpr hall]
          decide
        rw [hdw]
        simp
      · push_neg at hall
        obtain ⟨x, hxr, hxid0⟩ := hall
        have hxid : isIdentCh x = false := by simpa using hxid0
        have hrne : r.dropWhile isIdentCh ≠ [] := by
          rw [Ne, List.dropWhile_eq_nil_iff]
          push_neg
          exact ⟨x, hxr, by simp [hxid]⟩
        obtain ⟨d, t, hdt⟩ : ∃ d t, r.dropWhile isIdentCh = d :: t := by
          cases hdw : r.dropWhile isIdentCh with
          | nil => exact absurd hdw hrne
          | cons d t => exact ⟨d, t, rfl⟩
        obtain ⟨-, hdr⟩ := dropWhile_head_facts hdt
        have hdw2 : (r ++ ['(', ')', ')']).dropWhile isIdentCh
            = d :: (t ++ ['(', ')', ')']) := by
          rw [List.dropWhile_append, hdt]
          simp
        rw [hdw2]
        have hdne : (d == ')') = false :=
          beq_eq_false_iff_ne.mpr
            (ne_of_class (hB d (List.mem_cons_of_mem _ hdr)) (by decide))
        simp [hdne]

theorem search3_midline_false (B T : List Char)
    (hB : ∀ c ∈ B, isMidCh c = true)
    (hT : T = [')'] ∨ T = ['(', ')', ')'])
    (h0 : matchAt3 (prCall ++ (B ++ T)) = none) :
    search3 (prCall ++ (B ++ T)) = false := by
  unfold search3
  rw [reSearch_eq_false_iff rfl]
  intro t ht
  rcases suffix_append_cases ht with h1 | ⟨s, hs, rfl⟩
  · rcases suffix_append_cases h1 with h2 | ⟨y, hy, rfl⟩
    · rcases hT with rfl | rfl
      · rcases List.suffix_cons_iff.mp h2 with rfl | h3
        · decide
        · rw [List.suffix_nil.mp h3]; decide
      · rcases List.suffix_cons_iff.mp h2 with rfl | h3
        · decide
        rcases List.suffix_cons_iff.mp h3 with rfl | h4
        · decide
        rcases List.suffix_cons_iff.mp h4 with rfl | h5
        · decide
        · rw [List.suffix_nil.mp h5]; decide
    · exact matchAt3_none_mid y T (fun c hc => hB c (hy.subset hc)) hT
  · have hs6 : s <:+ ('p' :: 'r' :: 'i' :: 'n' :: 't' :: '(' :: []) := hs
    rcases List.suffix_cons_iff.mp hs6 with rfl | hs5
    · exact h0
    rcases List.suffix_cons_iff.mp hs5 with rfl | hs4
    · exact matchAt3_none_of_head_ne (by decide) _
    rcases List.suffix_cons_iff.mp hs4 with rfl | hs3
    · exact matchAt3_none_of_head_ne (by decide) _
    rcases List.suffix_cons_iff.mp hs3 with rfl | hs2
    · exact matchAt3_none_of_head_ne (by decide) _
    rcases List.suffix_cons_iff.mp hs2 with rfl | hs1
    · exact matchAt3_none_of_head_ne (by decide) _
    rcases List.suffix_cons_iff.mp hs1 with rfl | hs0
    · exact matchAt3_none_of_head_ne (by decide) _
    · rw [List.suffix_nil.mp hs0]
      have := matchAt3_none_mid B T hB hT
      simpa using this

theorem joinDots_midCh (segs : List (List Char))
    (h : ∀ s ∈ segs, ∀ c ∈ s, isSegCh c = true) :
    ∀ c ∈ joinDots segs, isMidCh c = true := by
  induction segs with
  | nil => intro c hc; simp [joinDots] at hc
  | cons s rest ih =>
    intro c hc
    cases rest with
    | nil =>
      rw [show joinDots [s] = s from rfl] at hc
      have := h s (List.mem_cons_self _ _) c hc
      simp [isMidCh, this]
    | cons s2 r2 =>
      rw [show joinDots (s :: s2 :: r2) = s ++ '.' :: joinDots (s2 :: r2) from rfl] at hc
      rcases List.mem_append.mp hc with h1 | h2
      · have := h s (List.mem_cons_self _ _) c h1
        simp [isMidCh, this]
      · rcases List.mem_cons.mp h2 with rfl | h3
        · decide
        · exact ih (fun x hx => h x (List.mem_cons_of_mem _ hx)) c h3

theorem mem_joinDots {segs : List (List Char)} {s : List Char} {c : Char}
    (hs : s ∈ segs) (hc : c ∈ s) : c ∈ joinDots segs := by
  induction segs with
  | nil => simp at hs
  | cons s1 rest ih =>
    rcases List.mem_cons.mp hs with rfl | hsr
    · cases rest with
      | nil => exact hc
      | cons s2 r2 =>
        rw [show joinDots (s :: s2 :: r2) = s ++ '.' :: joinDots (s2 :: r2) from rfl]
        exact List.mem_append.mpr (Or.inl hc)
    · cases rest with
      | nil => simp at hsr
      | cons s2 r2 =>
        rw [show joinDots (s1 :: s2 :: r2) = s1 ++ '.' :: joinDots (s2 :: r2) from rfl]
        exact List.mem_append.mpr (Or.inr (List.mem_cons_of_mem _ (ih hsr)))

theorem dot_mem_joinDots {segs : List (List Char)} (h : 2 ≤ segs.length) :
    '.' ∈ joinDots segs := by
  cases segs with
  | nil => simp at h
  | cons s rest =>
    cases rest with
    | nil => simp at h
    | cons s2 r2 =>
      rw [show joinDots (s :: s2 :: r2) = s ++ '.' :: joinDots (s2 :: r2) from rfl]
      exact List.mem_append.mpr (Or.inr (List.mem_cons_self _ _))

theorem upperCh_not_identCh (c : Char) (h : isUpperCh c = true) :
    isIdentCh c = false := by
  simp only [isUpperCh, decide_eq_true_eq] at h
  simp only [isIdentCh, isLowerCh, isDigitCh, Bool.or_eq_false_iff,
    decide_eq_false_iff_not]
  omega

theorem findLazy4_mid_T1 (B : List Char) (hB : ∀ c ∈ B, isMidCh c = true) :
    findLazy4 (B ++ [')']) = some B.length := by
  induction B with
  | nil => decide
  | cons c r ih =>
    have hc := hB c (List.mem_cons_self _ _)
    have h1 : (c == ')') = false :=
      beq_eq_false_iff_ne.mpr (ne_of_class hc (by decide))
    have h2 : (c == '\n') = false :=
      beq_eq_false_iff_ne.mpr (ne_of_class hc (by decide))
    rw [List.cons_append, findLazy4, h1, h2]
    simp [ih (fun x hx => hB x (List.mem_cons_of_mem _ hx))]

theorem findLazy4_mid_T2 (B : List Char) (hB : ∀ c ∈ B, isMidCh c = true) :
    findLazy4 (B ++ ['(', ')', ')']) = some (B.length + 2) := by
  induction B with
  | nil => decide
  | cons c r ih =>
    have hc := hB c (List.mem_cons_self _ _)
    have h1 : (c == ')') = false :=
      beq_eq_false_iff_ne.mpr (ne_of_class hc (by decide))
    have h2 : (c == '\n') = false :=
      beq_eq_false_iff_ne.mpr (ne_of_class hc (by decide))
    rw [List.cons_append, findLazy4, h1, h2]
    simp [ih (fun x hx => hB x (List.mem_cons_of_mem _ hx))]

theorem matchAt4_full (X : List Char) :
    matchAt4 (prCall ++ X)
      = (findLazy4 X).map (fun i => (X.take i, X.drop (i + 1))) := by
  unfold matchAt4
  rw [if_pos (prefixOf_self_append _ _), List.drop_left' prCall_length]

theorem find4_head {c : Char} {rest : List Char} {p : List Char × List Char}
    (hm : matchAt4 (c :: rest) = some p) : find4 (c :: rest) = some p.1 := by
  unfold find4
  rw [reFind, hm]
  rfl

theorem sub4_head {c : Char} {rest : List Char} {g : List Char}
    (hm : matchAt4 (c :: rest) = some (g, [])) :
    sub4 (c :: rest) = '[' :: (g ++ [']']) := by
  rw [sub4_cons, hm]
  rfl

theorem midCh_not_op {B : List Char} (hB : ∀ c ∈ B, isMidCh c = true) :
    hasOp B = false := by
  rw [hasOp, List.any_eq_false]
  intro c hc
  have h := hB c hc
  have h1 : (c == '+') = false := beq_eq_false_iff_ne.mpr (ne_of_class h (by decide))
  have h2 : (c == '-') = false := beq_eq_false_iff_ne.mpr (ne_of_class h (by decide))
  have h3 : (c == '*') = false := beq_eq_false_iff_ne.mpr (ne_of_class h (by decide))
  have h4 : (c == '/') = false := beq_eq_false_iff_ne.mpr (ne_of_class h (by decide))
  have h5 : (c == '(') = false := beq_eq_false_iff_ne.mpr (ne_of_class h (by decide))
  have h6 : (c == ')') = false := beq_eq_false_iff_ne.mpr (ne_of_class h (by decide))
  simp [h1, h2, h3, h4, h5, h6]

theorem mem_mid_line {B T : List Char} (hB : ∀ c ∈ B, isMidCh c = true)
    {d : Char} (hd : isMidCh d = false) (hd1 : d ∉ prCall) (hd2 : d ∉ T) :
    d ∉ (prCall ++ (B ++ T)) := by
  intro hm
  rcases List.mem_append.mp hm with h1 | h2
  · exact hd1 h1
  rcases List.mem_append.mp h2 with h3 | h4
  · rw [hB d h3] at hd; cases hd
  · exact hd2 h4

/-- C6 part 2 core, no parentheses: a dotted/uppercase argument falls all
the way through to the trailing check and is logged as not migratable. -/
theorem migrate_line_defective_nocall (B : List Char) (n : Nat) (fp : List Char)
    (hB : ∀ c ∈ B, isMidCh c = true)
    (hdef : ∃ c ∈ B, isIdentCh c = false) :
    search3 (prCall ++ (B ++ [')'])) = false ∧
    migrate_line (prCall ++ (B ++ [')'])) n fp
      = (prCall ++ (B ++ [')']), 0,
          [Diag.couldNotMigrate fp n (pyStrip (prCall ++ (B ++ [')'])))]) := by
  have hs3 : search3 (prCall ++ (B ++ [')'])) = false :=
    search3_midline_false B [')'] hB (Or.inl rfl) (matchAt3_none_defect B hB hdef)
  have hnb : '[' ∉ (prCall ++ (B ++ [')'])) :=
    mem_mid_line hB (by decide) (by decide) (by decide)
  have hnq : '\"' ∉ (prCall ++ (B ++ [')'])) :=
    mem_mid_line hB (by decide) (by decide) (by decide)
  have hs1 : search1 (prCall ++ (B ++ [')'])) = false :=
    search1_eq_false_of_not_mem hnb
  have hs2 : search2 (prCall ++ (B ++ [')'])) = false :=
    search2_eq_false_of_not_mem hnq
  have hm4 : matchAt4 (prCall ++ (B ++ [')'])) = some (B, []) := by
    rw [matchAt4_full, findLazy4_mid_T1 B hB, Option.map_some']
    rw [List.take_left' rfl, List.drop_of_length_le (by simp)]
  have hcons : prCall ++ (B ++ [')']) = 'p' :: (L "rint(" ++ (B ++ [')'])) := rfl
  have hf4 : find4 (prCall ++ (B ++ [')'])) = some B := by
    rw [hcons] at hm4 ⊢
    exact find4_head hm4
  have hop : hasOp B = false := midCh_not_op hB
  have hcont : containsSub prCall (prCall ++ (B ++ [')'])) = true :=
    containsSub_of_prefixOf (prefixOf_self_append _ _)
  refine ⟨hs3, ?_⟩
  rw [migrate_line_stage2 _ n fp hs1, migrateStage2_to3 _ _ n fp hs2,
    migrateStage3_to4 _ _ n fp hs3, migrateStage4_noop_diag _ n fp hf4 hop hcont]

/-- C6 part 2 core, with parentheses: a call-shaped argument is picked up
by the fallback rule (its group contains parentheses) and rewritten with a
manual-review diagnostic. -/
theorem migrate_line_defective_call (B : List Char) (n : Nat) (fp : List Char)
    (hB : ∀ c ∈ B, isMidCh c = true) :
    search3 (prCall ++ (B ++ ['(', ')', ')'])) = false ∧
    migrate_line (prCall ++ (B ++ ['(', ')', ')'])) n fp
      = ('[' :: ((B ++ ['(', ')']) ++ [']']), 1,
          [Diag.complexExpr fp n (pyStrip (prCall ++ (B ++ ['(', ')', ')'])))]) := by
  have hs3 : search3 (prCall ++ (B ++ ['(', ')', ')'])) = false :=
    search3_midline_false B ['(', ')', ')'] hB (Or.inr rfl) (matchAt3_none_call B hB)
  have hnb : '[' ∉ (prCall ++ (B ++ ['(', ')', ')'])) :=
    mem_mid_line hB (by decide) (by decide) (by decide)
  have hnq : '\"' ∉ (prCall ++ (B ++ ['(', ')', ')'])) :=
    mem_mid_line hB (by decide) (by decide) (by decide)
  have hs1 : search1 (prCall ++ (B ++ ['(', ')', ')'])) = false :=
    search1_eq_false_of_not_mem hnb
  have hs2 : search2 (prCall ++ (B ++ ['(', ')', ')'])) = false :=
    search2_eq_false_of_not_mem hnq
  have hm4 : matchAt4 (prCall ++ (B ++ ['(', ')', ')'])) = some (B ++ ['(', ')'], []) := by
    rw [matchAt4_full, findLazy4_mid_T2 B hB, Option.map_some']
    have hassoc : B ++ ['(', ')', ')'] = (B ++ ['(', ')']) ++ [')'] := by simp
    rw [hassoc, List.take_left' (by simp), List.drop_of_length_le (by simp)]
  have hcons : prCall ++ (B ++ ['(', ')', ')'])
      = 'p' :: (L "rint(" ++ (B ++ ['(', ')', ')'])) := rfl
  have hf4 : find4 (prCall ++ (B ++ ['(', ')', ')'])) = some (B ++ ['(', ')']) := by
    rw [hcons] at hm4 ⊢
    exact find4_head hm4
  have hop : hasOp (B ++ ['(', ')']) = true := by
    rw [hasOp, List.any_eq_true]
    exact ⟨'(', List.mem_append.mpr (Or.inr (List.mem_cons_self _ _)), by decide⟩
  have hsub4 : sub4 (prCall ++ (B ++ ['(', ')', ')']))
      = '[' :: ((B ++ ['(', ')']) ++ [']']) := by
    rw [hcons] at hm4 ⊢
    exact sub4_head hm4
  have hne : sub4 (prCall ++ (B ++ ['(', ')', ')'])) ≠ (prCall ++ (B ++ ['(', ')', ')'])) := by
    rw [hsub4]
    intro heq
    have hlen := congrArg List.length heq
    simp [prCall, L] at hlen
  refine ⟨hs3, ?_⟩
  rw [migrate_line_stage2 _ n fp hs1, migrateStage2_to3 _ _ n fp hs2,
    migrateStage3_to4 _ _ n fp hs3, migrateStage4_complex _ n fp hf4 hop hne, hsub4]

/-- C6: rule 3 rewrites `print(v)` to `[v]` exactly for its identifier
class `[a-z_][a-z0-9_]*`; for an identifier-shaped argument containing an
uppercase letter, a dot, or parentheses, rule 3 does not fire
(`search3` fails on the whole line) and the line either falls to the
fallback rule (call arguments, rewritten with a manual-review diagnostic)
or is logged as not auto-migratable and left unchanged. -/
theorem C6_identifier_rule :
    (∀ (v fp : List Char) (n : Nat), isLowIdent v = true →
        migrate_line (prCall ++ (v ++ [')'])) n fp
          = ('[' :: (v ++ [']']), 1, [])) ∧
    (∀ (segs : List (List Char)) (call : Bool) (fp : List Char) (n : Nat),
        segs ≠ [] → (∀ s ∈ segs, isSegment s = true) →
        defectiveArg segs call = true →
        search3 (prCall ++ (dottedArg segs call ++ [')'])) = false ∧
        migrate_line (prCall ++ (dottedArg segs call ++ [')'])) n fp =
          (if call then
            ('[' :: (dottedArg segs call ++ [']']), 1,
              [Diag.complexExpr fp n
                (pyStrip (prCall ++ (dottedArg segs call ++ [')'])))])
           else
            (prCall ++ (dottedArg segs call ++ [')']), 0,
              [Diag.couldNotMigrate fp n
                (pyStrip (prCall ++ (dottedArg segs call ++ [')'])))]))) := by
  constructor
  · intro v fp n hv
    exact migrate_line_ident v n fp hv
  · intro segs call fp n hsne hsegs hdef
    have hsegall : ∀ s ∈ segs, ∀ c ∈ s, isSegCh c = true := by
      intro s hs c hc
      have h := hsegs s hs
      rw [isSegment] at h
      simp only [Bool.and_eq_true, List.all_eq_true] at h
      exact h.2 c hc
    have hB : ∀ c ∈ joinDots segs, isMidCh c = true := joinDots_midCh segs hsegall
    cases call with
    | false =>
      have hda : dottedArg segs false = joinDots segs := by simp [dottedArg]
      rw [hda]
      have hdef' : ∃ c ∈ joinDots segs, isIdentCh c = false := by
        rw [defectiveArg] at hdef
        simp only [Bool.or_false, Bool.or_eq_true, List.any_eq_true,
          decide_eq_true_eq] at hdef
        rcases hdef with ⟨s, hs, c, hc, hupper⟩ | hlen
        · exact ⟨c, mem_joinDots hs hc, upperCh_not_identCh c hupper⟩
        · exact ⟨'.', dot_mem_joinDots hlen, by decide⟩
      simpa using migrate_line_defective_nocall (joinDots segs) n fp hB hdef'
    | true =>
      have hda : dottedArg segs true ++ [')'] = joinDots segs ++ ['(', ')', ')'] := by
        simp [dottedArg]
      have hda2 : dottedArg segs true = joinDots segs ++ ['(', ')'] := by
        simp [dottedArg]
      rw [hda, hda2]
      simpa using migrate_line_defective_call (joinDots segs) n fp hB

/-- C6 witness: the identifier part at `v = "x"`, so that
`print(x)` becomes `[x]` with one increment and no diagnostics. -/
theorem C6_witness :
    migrate_line (prCall ++ (L "x" ++ [')'])) 1 (L "f.bst")
      = ('[' :: (L "x" ++ [']']), 1, []) :=
  C6_identifier_rule.1 (L "x") (L "f.bst") 1 (by decide)

/-! ### Claim C10: several matches on one line, one counter increment -/

/-- A string-body character that keeps the analysis simple: not a quote,
not a backslash, and not `[` (so rule 1 cannot fire anywhere). -/
def plainStrCh (c : Char) : Bool := !(c == '\"') && !(c == '\\') && !(c == '[')

theorem findStrEnd_cons_other {c : Char} (h1 : (c == '\"') = false)
    (h2 : (c == '\\') = false) (rest : List Char) :
    findStrEnd (c :: rest) = (findStrEnd rest).map (· + 1) := by
  conv_lhs => rw [findStrEnd.eq_def]
  simp [h1, h2]

theorem findStrEnd_append (A : List Char)
    (hA : ∀ c ∈ A, (c == '\"') = false ∧ (c == '\\') = false) (rest : List Char) :
    findStrEnd (A ++ '\"' :: ')' :: rest) = some A.length := by
  induction A with
  | nil => simp [findStrEnd]
  | cons c r ih =>
    obtain ⟨h1, h2⟩ := hA c (List.mem_cons_self _ _)
    rw [List.cons_append, findStrEnd_cons_other h1 h2]
    simp [ih (fun x hx => hA x (List.mem_cons_of_mem _ hx))]

theorem matchAt2_str (A : List Char)
    (hA : ∀ c ∈ A, (c == '\"') = false ∧ (c == '\\') = false) (rest : List Char) :
    matchAt2 ((L "print(\"") ++ (A ++ '\"' :: ')' :: rest)) = some (A, rest) := by
  unfold matchAt2
  rw [if_pos (prefixOf_self_append _ _),
    List.drop_left' (show (L "print(\"").length = 7 from rfl),
    findStrEnd_append A hA rest]
  have hassoc : A ++ '\"' :: ')' :: rest = (A ++ ['\"', ')']) ++ rest := by simp
  simp only [Option.map_some', Option.some.injEq, Prod.mk.injEq]
  refine ⟨List.take_left' rfl, ?_⟩
  rw [hassoc]
  exact List.drop_left' (by simp)

theorem matchAt2_none_of_head_ne {c : Char} (hc : c ≠ 'p') (rest : List Char) :
    matchAt2 (c :: rest) = none := by
  unfold matchAt2
  have : ((L "print(\"").isPrefixOf (c :: rest)) = false := by
    show (('p' :: L "rint(\"").isPrefixOf (c :: rest)) = false
    rw [List.isPrefixOf]
    have h : ('p' == c) = false := beq_eq_false_iff_ne.mpr (fun h => hc h.symm)
    simp [h]
  rw [this]
  simp

theorem migrateStage2_fires (line : List Char) (n : Nat) (fp : List Char)
    (hs2 : search2 line = true) (hne : sub2 line ≠ line) :
    migrateStage2 line line n fp = (sub2 line, 1, []) := by
  unfold migrateStage2
  rw [hs2]
  simp [hne]

theorem search2_head {s : List Char} {c : Char} {rest : List Char}
    (he : s = c :: rest) {p : List Char × List Char}
    (hm : matchAt2 s = some p) : search2 s = true := by
  subst he
  unfold search2
  rw [reSearch, hm]
  rfl

theorem plainStr_facts {A : List Char} (hA : ∀ c ∈ A, plainStrCh c = true) :
    ∀ c ∈ A, (c == '\"') = false ∧ (c == '\\') = false := by
  intro c hc
  have h := hA c hc
  simp only [plainStrCh, Bool.and_eq_true, Bool.not_eq_eq_eq_not, Bool.not_true] at h
  exact ⟨h.1.1, h.1.2⟩

theorem bracket_not_mem_strline {A B : List Char}
    (hA : ∀ c ∈ A, plainStrCh c = true) (hB : ∀ c ∈ B, plainStrCh c = true) :
    '[' ∉ (L "print(\"" ++
      (A ++ ('\"' :: ')' :: (' ' :: (L "print(\"" ++ (B ++ ['\"', ')'])))))) := by
  intro hm
  simp only [List.mem_append, List.mem_cons] at hm
  rcases hm with h | h | h | h | h | h | h | h | h
  · exact absurd h (by decide)
  · exact absurd (hA _ h) (by decide)
  · exact absurd h (by decide)
  · exact absurd h (by decide)
  · exact absurd h (by decide)
  · exact absurd h (by decide)
  · exact absurd (hB _ h) (by decide)
  · exact absurd h (by decide)
  · simp at h

/-- C10: a line with two `print("...")` calls, both matching rule 2: one
`re.sub` call rewrites both occurrences, yet the counter is incremented by
exactly 1 for the line, with no diagnostics. -/
theorem C10_global_sub (A B fp : List Char) (n : Nat)
    (hA : ∀ c ∈ A, plainStrCh c = true) (hB : ∀ c ∈ B, plainStrCh c = true) :
    migrate_line
      (L "print(\"" ++ (A ++ ('\"' :: ')' :: (' ' :: (L "print(\"" ++ (B ++ ['\"', ')']))))))
      n fp
      = ('[' :: '\"' :: (A ++ ('\"' :: ']' :: (' ' :: ('[' :: '\"' :: (B ++ ['\"', ']']))))),
          1, []) := by
  have hA' := plainStr_facts hA
  have hB' := plainStr_facts hB
  have hs1 : search1 (L "print(\"" ++
      (A ++ ('\"' :: ')' :: (' ' :: (L "print(\"" ++ (B ++ ['\"', ')'])))))) = false :=
    search1_eq_false_of_not_mem (bracket_not_mem_strline hA hB)
  have hm2 : matchAt2 (L "print(\"" ++
      (A ++ ('\"' :: ')' :: (' ' :: (L "print(\"" ++ (B ++ ['\"', ')']))))))
      = some (A, ' ' :: (L "print(\"" ++ (B ++ ['\"', ')']))) :=
    matchAt2_str A hA' _
  have hm2B : matchAt2 (L "print(\"" ++ (B ++ ('\"' :: ')' :: ([] : List Char))))
      = some (B, []) := matchAt2_str B hB' []
  have hcons : L "print(\"" ++
      (A ++ ('\"' :: ')' :: (' ' :: (L "print(\"" ++ (B ++ ['\"', ')'])))))
      = 'p' :: (L "rint(\"" ++
          (A ++ ('\"' :: ')' :: (' ' :: (L "print(\"" ++ (B ++ ['\"', ')'])))))) := rfl
  have hconsB : L "print(\"" ++ (B ++ ('\"' :: ')' :: ([] : List Char)))
      = 'p' :: (L "rint(\"" ++ (B ++ ('\"' :: ')' :: ([] : List Char)))) := rfl
  have hs2 : search2 (L "print(\"" ++
      (A ++ ('\"' :: ')' :: (' ' :: (L "print(\"" ++ (B ++ ['\"', ')'])))))) = true :=
    search2_head hcons hm2
  have hsubB : sub2 (L "print(\"" ++ (B ++ ('\"' :: ')' :: ([] : List Char))))
      = '[' :: '\"' :: (B ++ ['\"', ']']) := by
    rw [hconsB] at hm2B ⊢
    rw [sub2_cons, hm2B]
    show '[' :: '\"' :: (B ++ '\"' :: ']' :: sub2 []) = _
    rw [show sub2 [] = [] from rfl]
  have hsubTail : sub2 (' ' :: (L "print(\"" ++ (B ++ ['\"', ')'])))
      = ' ' :: ('[' :: '\"' :: (B ++ ['\"', ']'])) := by
    rw [sub2_cons, matchAt2_none_of_head_ne (by decide) _]
    have he : L "print(\"" ++ (B ++ ['\"', ')'])
        = L "print(\"" ++ (B ++ ('\"' :: ')' :: ([] : List Char))) := by simp
    rw [he, hsubB]
  have hsub2 : sub2 (L "print(\"" ++
      (A ++ ('\"' :: ')' :: (' ' :: (L "print(\"" ++ (B ++ ['\"', ')']))))))
      = '[' :: '\"' :: (A ++ ('\"' :: ']' :: (' ' :: ('[' :: '\"' :: (B ++ ['\"', ']']))))) := by
    rw [hcons] at hm2 ⊢
    rw [sub2_cons, hm2]
    show '[' :: '\"' :: (A ++ '\"' :: ']' ::
        sub2 (' ' :: (L "print(\"" ++ (B ++ ['\"', ')'])))) = _
    rw [hsubTail]
  have hne : sub2 (L "print(\"" ++
      (A ++ ('\"' :: ')' :: (' ' :: (L "print(\"" ++ (B ++ ['\"', ')']))))))
      ≠ (L "print(\"" ++
          (A ++ ('\"' :: ')' :: (' ' :: (L "print(\"" ++ (B ++ ['\"', ')'])))))) := by
    rw [hsub2]
    intro heq
    have hlen := congrArg List.length heq
    simp [L] at hlen
    omega
  rw [migrate_line_stage2 _ n fp hs1, migrateStage2_fires _ n fp hs2 hne, hsub2]

/-- C10 witness: `print("a") print("b")` becomes `["a"] ["b"]` with one
counter increment. -/
theorem C10_witness :
    migrate_line
      (L "print(\"" ++ (L "a" ++ ('\"' :: ')' :: (' ' ::
        (L "print(\"" ++ (L "b" ++ ['\"', ')'])))))) 1 (L "f.bst")
      = ('[' :: '\"' :: (L "a" ++ ('\"' :: ']' :: (' ' ::
          ('[' :: '\"' :: (L "b" ++ ['\"', ']']))))), 1, []) :=
  C10_global_sub (L "a") (L "b") (L "f.bst") 1 (by decide) (by decide)
